import Mathlib

/-!
Shallow embedding of `src/swak.js` (class `EnhancedLLM`), a fixed-order
Markov-chain text generator, together with theorems about its behaviour.

Modelling conventions:
* JavaScript `Map` and `Set` preserve insertion order, so they are embedded
  as association lists (`aset` updates in place or appends) and duplicate-free
  lists (`sadd` appends when absent).
* A thrown `ValidationError` is embedded as `Except.error msg` (or, for the
  mutating `train`, as returning the untouched model paired with `some msg`).
* An n-gram key is the JS string `tokens.slice(i, i+order).join(' ')`.  The
  tokens produced by the tokenizer are nonempty and space-free, so joining
  with a single space is injective on them; keys are therefore embedded
  directly as token lists (`NGram := List String`).
* `Math.pow(count, 1 / temperature)` computes on IEEE floats; the sampler is
  embedded over `ℚ` with the weight transform abstracted as a parameter
  `pow : Nat → ℚ` (for real exponents `c ^ (1/t)` with `t > 0` the weight of a
  count is nonnegative, which is the only property the claims rely on; at
  `temperature = 1` the transform is exactly `fun c => (c : ℚ)`).
* `Math.random()` draws are passed in explicitly: `startIdx` for the random
  start-sequence index `Math.floor(Math.random() * size)` and a stream
  `rands : Nat → ℚ` of `[0,1)` draws for the sampler.
-/

deriving instance DecidableEq for Except

namespace Swak

/-- The whitespace characters of the JS `\s` class that can occur in the
inputs considered here (ASCII whitespace). -/
def isWS (c : Char) : Bool :=
  c = ' ' || c = '\t' || c = '\n' || c = '\r'

/-- Sentence-terminating punctuation, the JS character class `[.!?]`. -/
def isPunct (c : Char) : Bool :=
  c = '.' || c = '!' || c = '?'

/-- `text.replace(/\s+/g, ' ')`: collapse every whitespace run to one space. -/
def collapseWS : List Char → List Char
  | [] => []
  | [c] => if isWS c then [' '] else [c]
  | c :: d :: rest =>
    if isWS c then
      if isWS d then collapseWS (d :: rest) else ' ' :: collapseWS (d :: rest)
    else c :: collapseWS (d :: rest)

/-- `.replace(/([.!?])\s*/g, ' $1 ')`: each punctuation mark, together with the
whitespace following it, is replaced by the mark surrounded by single spaces.
The flag is `true` while the scan is inside the `\s*` part of a match. -/
def spacePunctAux : List Char → Bool → List Char
  | [], _ => []
  | c :: rest, skipping =>
    if skipping && isWS c then spacePunctAux rest true
    else if isPunct c then ' ' :: c :: ' ' :: spacePunctAux rest true
    else c :: spacePunctAux rest false

def spacePunct (l : List Char) : List Char :=
  spacePunctAux l false

/-- `String.prototype.trim()` on the character list. -/
def trim (l : List Char) : List Char :=
  ((l.dropWhile isWS).reverse.dropWhile isWS).reverse

/-- `.split(/\s+/)` on a trimmed string: the maximal runs of non-whitespace
characters, accumulated in `acc` (in reverse). -/
def splitWSAux : List Char → List Char → List (List Char)
  | [], acc => if acc = [] then [] else [acc.reverse]
  | c :: rest, acc =>
    if isWS c then
      if acc = [] then splitWSAux rest []
      else acc.reverse :: splitWSAux rest []
    else splitWSAux rest (c :: acc)

def splitWS (l : List Char) : List (List Char) :=
  splitWSAux l []

/-- The tokenization pipeline of `preprocessText`:
`text.replace(/\s+/g,' ').replace(/([.!?])\s*/g,' $1 ').trim().split(/\s+/)`. -/
def tokenize (text : String) : List String :=
  (splitWS (trim (spacePunct (collapseWS text.data)))).map (fun cs => String.mk cs)

/-- `preprocessText`: validation plus tokenization.  The "must be a string"
check is enforced by typing. -/
def preprocessText (order : Nat) (text : String) : Except String (List String) :=
  if trim text.data = [] then .error ("Input text cannot be empty")
  else
    let tokens := tokenize text
    if tokens.length < order + 1 then
      .error ("Input text must contain at least order+1 tokens")
    else .ok tokens

/-- An n-gram key: `order` consecutive tokens (the JS joins them with a single
space into a string key; that joining is injective on the nonempty, space-free
tokens the tokenizer produces, so keys are kept as token lists). -/
abbrev NGram := List String

/-- The state of an `EnhancedLLM` instance. -/
structure Model where
  order : Nat
  wordTransitions : List (NGram × List (String × Nat))
  startSequences : List NGram
  endSequences : List NGram
  totalTokens : Nat
deriving DecidableEq

/-- Association-list lookup (`Map.prototype.get`). -/
def alookup {α β : Type} [DecidableEq α] : List (α × β) → α → Option β
  | [], _ => none
  | (k, v) :: rest, key => if key = k then some v else alookup rest key

/-- `Map.prototype.set`: update an existing key in place, else append. -/
def aset {α β : Type} [DecidableEq α] : List (α × β) → α → β → List (α × β)
  | [], key, val => [(key, val)]
  | (k, v) :: rest, key, val =>
    if key = k then (k, val) :: rest else (k, v) :: aset rest key val

/-- `Set.prototype.add`: append when absent. -/
def sadd {α : Type} [DecidableEq α] (s : List α) (x : α) : List α :=
  if x ∈ s then s else s ++ [x]

/-- `getNGram`: `tokens.slice(startIndex, startIndex + order)` as a key. -/
def getNGram (order : Nat) (tokens : List String) (startIndex : Nat) : NGram :=
  (tokens.drop startIndex).take order

/-- `token.match(/[.!?]$/)`: the token's last character is `.`, `!` or `?`. -/
def endsSentence (t : String) : Bool :=
  match t.data.getLast? with
  | some c => isPunct c
  | none => false

/-- One iteration of the training loop of `train` (loop variable `i`): record
the gram in `endSequences` when the next token ends a sentence, then bump the
transition count of (gram, next token), creating the inner map if absent. -/
def trainBody (order : Nat) (tokens : List String) (M : Model) (i : Nat) : Model :=
  let currentGram := getNGram order tokens i
  let nextToken := tokens.getD (i + order) ""
  let transitions := (alookup M.wordTransitions currentGram).getD []
  ⟨M.order,
   aset M.wordTransitions currentGram
     (aset transitions nextToken ((alookup transitions nextToken).getD 0 + 1)),
   M.startSequences,
   if endsSentence nextToken then sadd M.endSequences currentGram
   else M.endSequences,
   M.totalTokens⟩

/-- The successful branch of `train`, after `preprocessText` returned tokens. -/
def trainTokens (M : Model) (tokens : List String) : Model :=
  let M1 :=
    { M with
      totalTokens := M.totalTokens + tokens.length,
      startSequences := sadd M.startSequences (getNGram M.order tokens 0) }
  (List.range (tokens.length - M.order)).foldl (trainBody M.order tokens) M1

/-- `train`: `preprocessText` runs before any mutation, so on a
`ValidationError` the model is returned untouched together with the message. -/
def train (M : Model) (text : String) : Model × Option String :=
  match preprocessText M.order text with
  | .error e => (M, some e)
  | .ok tokens => (trainTokens M tokens, none)

/-- The cumulative walk of `selectNextToken`: return the first token whose
running weight sum reaches `rand`; `none` models falling off the loop. -/
def walk (pow : Nat → ℚ) : List (String × Nat) → ℚ → ℚ → Option String
  | [], _, _ => none
  | (token, prob) :: rest, rand, cumulative =>
    let cumulative2 := cumulative + pow prob
    if rand ≤ cumulative2 then some token else walk pow rest rand cumulative2

/-- `selectNextToken`, with `Math.pow(prob, 1 / temperature)` abstracted as
`pow`.  `rand01` is the `Math.random()` draw; the fallback
`entries[entries.length - 1][0]` is `getLast?` (`none` only on an empty map,
where the JS indexing would throw). -/
def selectNextToken (pow : Nat → ℚ) (transitions : List (String × Nat))
    (rand01 : ℚ) : Option String :=
  let total := transitions.foldl (fun sum e => sum + pow e.2) 0
  let rand := rand01 * total
  match walk pow transitions rand 0 with
  | some t => some t
  | none => (transitions.getLast?).map Prod.fst

/-- The recognized generation options.  `temperature` is absorbed into the
sampler's `pow` parameter; the length fields are the integers accepted by
`validateOptions`. -/
structure GenOptions where
  minLength : Nat
  maxLength : Nat
  endOnSentence : Bool
deriving DecidableEq

/-- `validateOptions`: `minLength` a positive integer, `maxLength ≥ minLength`
(the type-level checks of the JS are enforced by typing). -/
def validateOptions (o : GenOptions) : Bool :=
  1 ≤ o.minLength && o.minLength ≤ o.maxLength

/-- The `while (generatedTokens.length < maxLength)` loop of `generate`.
`fuel` bounds the iteration count (each iteration appends one token, so
`maxLength` fuel is enough); `step` indexes the random stream; `none` models
the wrapped error thrown when the sampler is handed an empty map. -/
def genLoop (M : Model) (pow : Nat → ℚ) (opts : GenOptions) (rands : Nat → ℚ) :
    Nat → Nat → List String → NGram → Option (List String)
  | 0, _, generatedTokens, _ => some generatedTokens
  | fuel + 1, step, generatedTokens, currentGram =>
    if generatedTokens.length < opts.maxLength then
      match alookup M.wordTransitions currentGram with
      | none => some generatedTokens
      | some transitions =>
        match selectNextToken pow transitions (rands step) with
        | none => none
        | some nextToken =>
          let generated2 := generatedTokens ++ [nextToken]
          let currentGram2 := generated2.drop (generated2.length - M.order)
          if opts.endOnSentence ∧ endsSentence nextToken = true ∧
              opts.minLength ≤ generated2.length then
            some generated2
          else genLoop M pow opts rands fuel (step + 1) generated2 currentGram2
    else some generatedTokens

/-- `startPhrase.toLowerCase()` (character-wise, as for the ASCII inputs the
JS method is). -/
def lowerStr (s : String) : String :=
  String.mk (s.data.map Char.toLower)

/-- The string key a gram is stored under: `tokens.join(' ')`. -/
def joinKey (k : NGram) : String :=
  " ".intercalate k

/-- `generate`.  `startIdx` models `Math.floor(Math.random() * size)` for the
random start draw, `rands` the per-step sampler draws. -/
def generate (M : Model) (pow : Nat → ℚ) (startPhrase : Option String)
    (opts : GenOptions) (startIdx : Nat) (rands : Nat → ℚ) :
    Except String (List String) :=
  if M.wordTransitions = [] then
    .error ("Model must be trained before generating text")
  else if validateOptions opts = false then
    .error ("invalid generation options")
  else
    let seed : Except String NGram :=
      match startPhrase with
      | some phrase =>
        match M.wordTransitions.find? (fun e => joinKey e.1 == lowerStr phrase) with
        | none => .error ("Start phrase not found in training data")
        | some e => .ok e.1
      | none =>
        match M.startSequences[startIdx]? with
        | none => .error ("random start index out of range")
        | some k => .ok k
    match seed with
    | .error e => .error e
    | .ok s =>
      match genLoop M pow opts rands opts.maxLength 0 s s with
      | none => .error ("Error during text generation")
      | some out => .ok out

/-- The record returned by `getStats`. -/
structure Stats where
  vocabularySize : Nat
  totalTransitions : Nat
  startSequences : Nat
  endSequences : Nat
  totalTokens : Nat
  averageTransitionsPerState : ℚ
deriving DecidableEq

/-- `getStats` (the JS float division is exact division in `ℚ`). -/
def getStats (M : Model) : Stats :=
  ⟨M.wordTransitions.length,
   M.wordTransitions.foldl
     (fun sum e => sum + e.2.foldl (fun s2 p => s2 + p.2) 0) 0,
   M.startSequences.length,
   M.endSequences.length,
   M.totalTokens,
   if 0 < M.wordTransitions.length then
     (M.wordTransitions.foldl (fun sum e => sum + e.2.length) 0 : ℚ) /
       (M.wordTransitions.length : ℚ)
   else 0⟩

/-- `validateOrder`: `Number.isInteger(order) && 1 <= order && order <= 5`
(integrality enforced by the `Int` type). -/
def validateOrder (order : Int) : Bool :=
  1 ≤ order && order ≤ 5

/-- A freshly constructed model with the given (already validated) order. -/
def freshModel (o : Nat) : Model :=
  ⟨o, [], [], [], 0⟩

/-- The constructor `new EnhancedLLM(order = 1)`: `none` models an omitted
argument, which the default parameter turns into `1` before validation. -/
def createModel (order : Option Int) : Except String Model :=
  let o := order.getD 1
  if validateOrder o then .ok (freshModel o.toNat)
  else .error ("Order must be an integer between 1 and 5")

/-- The count stored for (gram `k`, next token `t`); absence means `0`. -/
def getCount (M : Model) (k : NGram) (t : String) : Nat :=
  match alookup M.wordTransitions k with
  | none => 0
  | some inner => (alookup inner t).getD 0

/-- The invariant of the spec's §3: every stored occurrence count is ≥ 1. -/
def countsPos (M : Model) : Prop :=
  ∀ k inner, alookup M.wordTransitions k = some inner →
    ∀ t c, alookup inner t = some c → 1 ≤ c

/-- Every n-gram key stored in the model has exactly `order` tokens (this
holds for every model reachable by training, see `wfKeys_train`). -/
def wfKeys (M : Model) : Prop :=
  (∀ k ∈ M.startSequences, k.length = M.order) ∧
  (∀ e ∈ M.wordTransitions, e.1.length = M.order)

/-- The training text of the worked example in the source. -/
def foxText : String :=
  "The quick brown fox jumps over the lazy dog. The dog barks at the fox. The fox runs away quickly."

/-- The training text of the source's round-trip test. -/
def testText : String :=
  "This is a test."

/-- Two adjacent characters are compatible with punctuation isolation: a
punctuation mark only sits next to whitespace. -/
def punctSpaced (a b : Char) : Prop :=
  (isPunct a = true → isWS b = true) ∧ (isPunct b = true → isWS a = true)

/-- How many of the loop indices `is` contribute a transition from gram `k`
to token `t` when training on `toks`; depends only on the token sequence. -/
def hitCount (o : Nat) (toks : List String) (k : NGram) (t : String) : List Nat → Nat
  | [] => 0
  | i :: rest =>
    (if getNGram o toks i = k ∧ toks.getD (i + o) "" = t then 1 else 0) +
      hitCount o toks k t rest

/-! ### Helper lemmas about the association-list operations -/

theorem alookup_aset {α β : Type} [DecidableEq α] (l : List (α × β)) (k k' : α) (v : β) :
    alookup (aset l k v) k' = if k' = k then some v else alookup l k' := by
  induction l with
  | nil => simp [aset, alookup]
  | cons e rest ih =>
    rcases e with ⟨ek, ev⟩
    by_cases hk : k = ek
    · subst hk
      by_cases hk' : k' = k <;> simp [aset, alookup, hk']
    · by_cases hk' : k' = ek
      · subst hk'
        simp [aset, alookup, hk, Ne.symm hk]
      · simp [aset, alookup, hk, hk', ih]

/-- Values in `aset l k v` are `v` or values already present in `l`. -/
theorem alookup_aset_cases {α β : Type} [DecidableEq α] (l : List (α × β))
    (k k' : α) (v w : β) (h : alookup (aset l k v) k' = some w) :
    w = v ∨ alookup l k' = some w := by
  rw [alookup_aset] at h
  by_cases hk : k' = k
  · rw [if_pos hk] at h
    exact Or.inl (Option.some.inj h).symm
  · rw [if_neg hk] at h
    exact Or.inr h

/-! ### Helper lemmas about the training loop -/

theorem getCount_eq_inner (M : Model) (k : NGram) (t : String) :
    getCount M k t = (alookup ((alookup M.wordTransitions k).getD []) t).getD 0 := by
  unfold getCount
  cases alookup M.wordTransitions k with
  | none => simp [alookup]
  | some inner => simp

theorem getCount_trainBody (o : Nat) (toks : List String) (M : Model) (i : Nat)
    (k : NGram) (t : String) :
    getCount (trainBody o toks M i) k t
      = getCount M k t +
        (if getNGram o toks i = k ∧ toks.getD (i + o) "" = t then 1 else 0) := by
  have hbody : (trainBody o toks M i).wordTransitions
      = aset M.wordTransitions (getNGram o toks i)
          (aset ((alookup M.wordTransitions (getNGram o toks i)).getD [])
            (toks.getD (i + o) "")
            ((alookup ((alookup M.wordTransitions (getNGram o toks i)).getD [])
                (toks.getD (i + o) "")).getD 0 + 1)) := rfl
  rw [getCount_eq_inner, hbody, alookup_aset]
  by_cases hk : k = getNGram o toks i
  · rw [if_pos hk, Option.getD_some, alookup_aset]
    by_cases ht : t = toks.getD (i + o) ""
    · subst hk; subst ht
      rw [if_pos rfl, Option.getD_some, getCount_eq_inner, if_pos ⟨rfl, rfl⟩]
    · subst hk
      rw [if_neg ht, getCount_eq_inner, if_neg (fun hand => ht hand.2.symm)]
      omega
  · rw [if_neg hk, getCount_eq_inner, if_neg (fun hand => hk hand.1.symm)]
    omega

theorem getCount_foldl (o : Nat) (toks : List String) (is : List Nat)
    (M : Model) (k : NGram) (t : String) :
    getCount (is.foldl (trainBody o toks) M) k t
      = getCount M k t + hitCount o toks k t is := by
  induction is generalizing M with
  | nil => simp [hitCount]
  | cons i rest ih =>
    rw [List.foldl_cons, ih, getCount_trainBody, hitCount]
    omega

theorem foldl_trainBody_order (o : Nat) (toks : List String) (is : List Nat) (M : Model) :
    ((is.foldl (trainBody o toks) M)).order = M.order := by
  induction is generalizing M with
  | nil => rfl
  | cons i rest ih => rw [List.foldl_cons, ih]; rfl

theorem foldl_trainBody_totalTokens (o : Nat) (toks : List String) (is : List Nat) (M : Model) :
    ((is.foldl (trainBody o toks) M)).totalTokens = M.totalTokens := by
  induction is generalizing M with
  | nil => rfl
  | cons i rest ih => rw [List.foldl_cons, ih]; rfl

theorem trainTokens_order (M : Model) (toks : List String) :
    (trainTokens M toks).order = M.order := by
  unfold trainTokens
  rw [foldl_trainBody_order]

theorem trainTokens_totalTokens (M : Model) (toks : List String) :
    (trainTokens M toks).totalTokens = M.totalTokens + toks.length := by
  unfold trainTokens
  rw [foldl_trainBody_totalTokens]

theorem getCount_trainTokens (M : Model) (toks : List String) (k : NGram) (t : String) :
    getCount (trainTokens M toks) k t
      = getCount M k t +
        hitCount M.order toks k t (List.range (toks.length - M.order)) := by
  unfold trainTokens
  rw [getCount_foldl]
  rfl

/-! ### Settled claims -/

/-- Claim C10: constructing a model with no order argument succeeds and the
default order is 1 (the omitted argument defaults before validation can
reject it). -/
theorem createModel_default_order :
    createModel none = .ok (freshModel 1) ∧ (freshModel 1).order = 1 := by
  exact ⟨rfl, rfl⟩

/-- Claim C2: when tokenization yields fewer than `order + 1` tokens (which
subsumes empty and whitespace-only input), `train` fails with a
ValidationError and returns the model exactly as it was: `preprocessText`
runs before any field is touched. -/
theorem train_validation_failure_no_mutation (M : Model) (text : String)
    (h : (tokenize text).length < M.order + 1) :
    ∃ e, train M text = (M, some e) := by
  unfold train preprocessText
  by_cases he : trim text.data = []
  · rw [if_pos he]
    exact ⟨_, rfl⟩
  · rw [if_neg he]
    simp only [if_pos h]
    exact ⟨_, rfl⟩

theorem train_validation_failure_no_mutation_witness :
    (tokenize ("hi")).length < (freshModel 1).order + 1 ∧
    ∃ e, train (freshModel 1) ("hi") = (freshModel 1, some e) :=
  ⟨by decide, train_validation_failure_no_mutation (freshModel 1) ("hi") (by decide)⟩

/-- Claim C6, counterexample: tokenizing the claim's own example
`"This is a test."` does not attach the period to `"test"`; the regex
`/([.!?])\s*/ → ' $1 '` inserts a space before the mark as well, so the final
token is `"."`, not `"test."`. -/
theorem tokenize_attached_punct_cex :
    preprocessText 1 testText = .ok ["This", "is", "a", "test", "."] ∧
    (tokenize testText).getLast? ≠ some ("test.") := by
  decide

/-- Claim C5, counterexample: after training an order-1 model on
`"This is a test."`, generating from the explicit start phrase `"This"` fails:
the lookup lowercases the phrase to `"this"` but training stored `"This"`. -/
theorem generate_start_phrase_this_fails :
    generate (train (freshModel 1) testText).1 (fun c => (c : ℚ))
      (some ("This")) ⟨1, 50, false⟩ 0 (fun _ => 0)
      = .error ("Start phrase not found in training data") := by
  decide

/-- Claim C5, amended: for every sampler weight transform and every random
stream, generating from the start phrase `"This"` on that trained model fails
with the ValidationError `"Start phrase not found in training data"`, because
the start-phrase lookup lowercases the phrase while training preserves case. -/
theorem generate_start_phrase_lowercase_mismatch (pow : Nat → ℚ)
    (rands : Nat → ℚ) (startIdx : Nat) :
    generate (train (freshModel 1) testText).1 pow (some ("This"))
      ⟨1, 50, false⟩ startIdx rands
      = .error ("Start phrase not found in training data") := by
  rfl

/-- Claim C7, counterexample: on the fox/dog example text with order 2, the
startSequences set has size 1, not 3 — `train` records only the first n-gram
of the whole call, not one per sentence. -/
theorem fox_startSequences_ne_three :
    (getStats (train (freshModel 2) foxText).1).startSequences ≠ 3 := by
  decide

/-- Claim C7, amended: after the single order-2 training call on the fox/dog
text, `startSequences` has size 1 (one entry per train call) and
`endSequences` has size 3 (one per sentence-final transition). -/
theorem fox_start_end_counts :
    (getStats (train (freshModel 2) foxText).1).startSequences = 1 ∧
    (getStats (train (freshModel 2) foxText).1).endSequences = 3 := by
  decide

/-- Claim C3: training twice with the same text from the same initial state
adds, for every n-gram key and next token, exactly twice the transition-count
increment one call adds, and twice the `totalTokens` increment (the counts
after two calls, plus the initial counts, equal double the counts after one). -/
theorem train_twice_doubles (M : Model) (text : String) (tokens : List String)
    (h : preprocessText M.order text = .ok tokens) (k : NGram) (t : String) :
    getCount (train (train M text).1 text).1 k t + getCount M k t
      = 2 * getCount (train M text).1 k t ∧
    (train (train M text).1 text).1.totalTokens + M.totalTokens
      = 2 * (train M text).1.totalTokens := by
  have e1 : (train M text).1 = trainTokens M tokens := by
    unfold train
    rw [h]
  have horder : (trainTokens M tokens).order = M.order := trainTokens_order M tokens
  have e2 : (train (train M text).1 text).1 = trainTokens (trainTokens M tokens) tokens := by
    rw [e1]
    unfold train
    rw [horder, h]
  rw [e2, e1]
  constructor
  · simp only [getCount_trainTokens, horder]
    omega
  · simp only [trainTokens_totalTokens]
    omega

theorem train_twice_doubles_witness :
    preprocessText (freshModel 1).order ("a b .") = .ok ["a", "b", "."] ∧
    (getCount (train (train (freshModel 1) ("a b .")).1 ("a b .")).1 ["a"] ("b")
        + getCount (freshModel 1) ["a"] ("b")
      = 2 * getCount (train (freshModel 1) ("a b .")).1 ["a"] ("b") ∧
    (train (train (freshModel 1) ("a b .")).1 ("a b .")).1.totalTokens
        + (freshModel 1).totalTokens
      = 2 * (train (freshModel 1) ("a b .")).1.totalTokens) :=
  ⟨by decide,
   train_twice_doubles (freshModel 1) ("a b .") ["a", "b", "."] (by decide) ["a"] ("b")⟩

/-! ### Preservation of the count invariant (claim C8) -/

theorem countsPos_trainBody (o : Nat) (toks : List String) (M : Model) (i : Nat)
    (h : countsPos M) : countsPos (trainBody o toks M i) := by
  intro k inner hinner t c hc
  have hbody : (trainBody o toks M i).wordTransitions
      = aset M.wordTransitions (getNGram o toks i)
          (aset ((alookup M.wordTransitions (getNGram o toks i)).getD [])
            (toks.getD (i + o) "")
            ((alookup ((alookup M.wordTransitions (getNGram o toks i)).getD [])
                (toks.getD (i + o) "")).getD 0 + 1)) := rfl
  rw [hbody] at hinner
  rcases alookup_aset_cases _ _ _ _ _ hinner with h1 | h1
  · subst h1
    rcases alookup_aset_cases _ _ _ _ _ hc with h2 | h2
    · omega
    · cases hwt : alookup M.wordTransitions (getNGram o toks i) with
      | none =>
        rw [hwt] at h2
        exact nomatch h2
      | some inn =>
        rw [hwt] at h2
        exact h (getNGram o toks i) inn hwt t c h2
  · exact h k inner h1 t c hc

theorem countsPos_foldl (o : Nat) (toks : List String) (is : List Nat) (M : Model)
    (h : countsPos M) : countsPos (is.foldl (trainBody o toks) M) := by
  induction is generalizing M with
  | nil => exact h
  | cons i rest ih =>
    rw [List.foldl_cons]
    exact ih _ (countsPos_trainBody o toks M i h)

/-- Claim C8: training preserves the invariant that every stored count is
at least 1, and neither any transition count nor `totalTokens` ever
decreases.  (`generate` and `getStats` are pure readers of the model in this
embedding, so they preserve the invariant trivially.) -/
theorem train_preserves_invariants (M : Model) (text : String) (h : countsPos M) :
    countsPos (train M text).1 ∧
    (∀ k t, getCount M k t ≤ getCount (train M text).1 k t) ∧
    M.totalTokens ≤ (train M text).1.totalTokens := by
  cases hp : preprocessText M.order text with
  | error e =>
    have e1 : train M text = (M, some e) := by
      unfold train
      rw [hp]
    rw [e1]
    exact ⟨h, fun k t => le_refl _, le_refl _⟩
  | ok tokens =>
    have e1 : train M text = (trainTokens M tokens, none) := by
      unfold train
      rw [hp]
    rw [e1]
    refine ⟨?_, fun k t => ?_, ?_⟩
    · show countsPos (trainTokens M tokens)
      unfold trainTokens
      exact countsPos_foldl _ _ _ _ h
    · show getCount M k t ≤ getCount (trainTokens M tokens) k t
      rw [getCount_trainTokens]
      exact Nat.le_add_right _ _
    · show M.totalTokens ≤ (trainTokens M tokens).totalTokens
      rw [trainTokens_totalTokens]
      exact Nat.le_add_right _ _

theorem train_preserves_invariants_witness :
    countsPos (freshModel 1) ∧
    (countsPos (train (freshModel 1) testText).1 ∧
     (∀ k t, getCount (freshModel 1) k t ≤ getCount (train (freshModel 1) testText).1 k t) ∧
     (freshModel 1).totalTokens ≤ (train (freshModel 1) testText).1.totalTokens) :=
  ⟨(fun _ _ hinner => nomatch hinner),
   train_preserves_invariants (freshModel 1) testText (fun _ _ hinner => nomatch hinner)⟩

/-! ### The weighted sampler (claims C4 and C9) -/

/-- Claim C4: when the random draw is 0, the sampler returns the first entry
of the (insertion-ordered) transitions map: `rand = 0 * total = 0` and the
first cumulative weight is already `≥ 0`.  The hypothesis `0 ≤ pow n` is what
`Math.pow(count, 1 / temperature)` satisfies for every `temperature > 0`. -/
theorem selectNextToken_zero_rand_first (pow : Nat → ℚ) (tok : String) (c : Nat)
    (rest : List (String × Nat)) (hpow : ∀ n, 0 ≤ pow n) :
    selectNextToken pow ((tok, c) :: rest) 0 = some tok := by
  have hcond : (0 : ℚ) * (((tok, c) :: rest).foldl (fun sum e => sum + pow e.2) 0)
      ≤ 0 + pow c := by
    rw [zero_mul, zero_add]
    exact hpow c
  simp only [selectNextToken, walk, if_pos hcond]

theorem selectNextToken_zero_rand_first_witness :
    (∀ n, (0 : ℚ) ≤ (fun m : Nat => ((m : ℚ))) n) ∧
    selectNextToken (fun m : Nat => ((m : ℚ))) [("a", 2), ("b", 2)] 0 = some ("a") :=
  ⟨fun n => Nat.cast_nonneg n,
   selectNextToken_zero_rand_first (fun m : Nat => ((m : ℚ))) "a" 2 [("b", 2)]
     (fun n => Nat.cast_nonneg n)⟩

theorem walk_mem (pow : Nat → ℚ) (l : List (String × Nat)) (rand cum : ℚ)
    (t : String) (h : walk pow l rand cum = some t) : ∃ c, (t, c) ∈ l := by
  induction l generalizing cum with
  | nil => exact nomatch h
  | cons e rest ih =>
    rcases e with ⟨tok, prob⟩
    simp only [walk] at h
    split at h
    · exact ⟨prob, by rw [← Option.some.inj h]; exact List.mem_cons_self _ _⟩
    · rcases ih _ h with ⟨c, hc⟩
      exact ⟨c, List.mem_cons_of_mem _ hc⟩

/-- Claim C9: on a non-empty transitions map the sampler always returns some
token that is a key of the map; the fallback access to the last entry is in
bounds, so the error path is unreachable. -/
theorem selectNextToken_total (pow : Nat → ℚ) (transitions : List (String × Nat))
    (h : transitions ≠ []) (rand01 : ℚ) :
    ∃ t c, selectNextToken pow transitions rand01 = some t ∧ (t, c) ∈ transitions := by
  cases hw : walk pow transitions
      (rand01 * transitions.foldl (fun sum e => sum + pow e.2) 0) 0 with
  | some t =>
    rcases walk_mem _ _ _ _ _ hw with ⟨c, hc⟩
    refine ⟨t, c, ?_, hc⟩
    simp only [selectNextToken, hw]
  | none =>
    refine ⟨(transitions.getLast h).1, (transitions.getLast h).2, ?_, ?_⟩
    · simp only [selectNextToken, hw]
      rw [List.getLast?_eq_getLast _ h]
      rfl
    · rw [Prod.mk.eta]
      exact List.getLast_mem h

theorem selectNextToken_total_witness :
    ([("a", 1)] : List (String × Nat)) ≠ [] ∧
    ∃ t c, selectNextToken (fun m : Nat => ((m : ℚ))) [("a", 1)] (1 / 2) = some t ∧
      (t, c) ∈ ([("a", 1)] : List (String × Nat)) :=
  ⟨by decide, selectNextToken_total (fun m : Nat => ((m : ℚ))) [("a", 1)] (by decide) (1 / 2)⟩

/-- Claim C1, counterexample: with order 2 and the validator-accepted options
`minLength = 1, maxLength = 1`, `generate` returns the two-token seed n-gram,
which is longer than `maxLength`. -/
theorem generate_maxLength_violation :
    validateOptions ⟨1, 1, false⟩ = true ∧
    generate (train (freshModel 2) ("a b c .")).1 (fun c => (c : ℚ))
      (some ("a b")) ⟨1, 1, false⟩ 0 (fun _ => 0) = .ok ["a", "b"] ∧
    ¬ ((["a", "b"] : List String).length ≤ 1) := by
  decide

/-! ### Length bounds of the generation loop (claim C1) -/

theorem genLoop_length_aux (M : Model) (pow : Nat → ℚ) (opts : GenOptions)
    (rands : Nat → ℚ) :
    ∀ fuel step toks cur out,
      genLoop M pow opts rands fuel step toks cur = some out →
      (toks.length ≤ out.length ∧ out.length ≤ opts.maxLength) ∨ out = toks := by
  intro fuel
  induction fuel with
  | zero =>
    intro step toks cur out h
    right
    exact (Option.some.inj h).symm
  | succ fuel ih =>
    intro step toks cur out h
    simp only [genLoop] at h
    split at h
    · split at h
      · right
        exact (Option.some.inj h).symm
      · split at h
        · exact nomatch h
        · split at h
          · left
            have hout : out = toks ++ [_] := (Option.some.inj h).symm
            subst hout
            rw [List.length_append]
            rename_i hlen _ _ _ _ _
            simp only [List.length_cons, List.length_nil]
            omega
          · rcases ih _ _ _ _ h with ⟨h1, h2⟩ | h1
            · left
              rw [List.length_append] at h1
              simp only [List.length_cons, List.length_nil] at h1
              exact ⟨by omega, h2⟩
            · left
              subst h1
              rw [List.length_append]
              rename_i hlen _ _ _ _ _
              simp only [List.length_cons, List.length_nil]
              omega
    · right
      exact (Option.some.inj h).symm

/-- Claim C1, amended: every successful `generate` call returns at least
`order` tokens (the seed n-gram), and at most `max maxLength order` tokens —
the `maxLength` cap holds except that when `maxLength < order` the seed is
returned whole and already exceeds it. -/
theorem generate_length_bounds (M : Model) (pow : Nat → ℚ)
    (startPhrase : Option String) (opts : GenOptions) (startIdx : Nat)
    (rands : Nat → ℚ) (out : List String) (hwf : wfKeys M)
    (h : generate M pow startPhrase opts startIdx rands = .ok out) :
    M.order ≤ out.length ∧ out.length ≤ max opts.maxLength M.order := by
  simp only [generate] at h
  split at h
  · exact nomatch h
  · split at h
    · exact nomatch h
    · split at h
      · exact nomatch h
      · rename_i s heq
        split at h
        · exact nomatch h
        · rename_i out2 hgl
          have hout : out = out2 := (Except.ok.inj h).symm
          subst hout
          have hslen : s.length = M.order := by
            split at heq
            · split at heq
              · exact nomatch heq
              · rename_i e hfind
                have hmem : e ∈ M.wordTransitions := List.mem_of_find?_eq_some hfind
                have := hwf.2 e hmem
                rw [← Except.ok.inj heq]
                exact this
            · split at heq
              · exact nomatch heq
              · rename_i k hk
                have hmem : k ∈ M.startSequences := List.getElem?_mem hk
                have := hwf.1 k hmem
                rw [← Except.ok.inj heq]
                exact this
          rcases genLoop_length_aux M pow opts rands _ _ _ _ _ hgl with ⟨h1, h2⟩ | h1
          · rw [hslen] at h1
            exact ⟨h1, le_trans h2 (le_max_left _ _)⟩
          · subst h1
            rw [hslen]
            exact ⟨le_refl _, le_max_right _ _⟩

theorem generate_length_bounds_witness :
    wfKeys (train (freshModel 2) ("a b c .")).1 ∧
    generate (train (freshModel 2) ("a b c .")).1 (fun m : Nat => ((m : ℚ)))
      (some ("a b")) ⟨1, 2, false⟩ 0 (fun _ => 0) = .ok ["a", "b"] ∧
    ((train (freshModel 2) ("a b c .")).1.order
        ≤ (["a", "b"] : List String).length ∧
      (["a", "b"] : List String).length
        ≤ max (2 : Nat) (train (freshModel 2) ("a b c .")).1.order) :=
  ⟨by unfold wfKeys; exact ⟨by decide, by decide⟩, by decide,
   generate_length_bounds (train (freshModel 2) ("a b c .")).1
     (fun m : Nat => ((m : ℚ))) (some ("a b")) ⟨1, 2, false⟩ 0 (fun _ => 0)
     ["a", "b"] (by unfold wfKeys; exact ⟨by decide, by decide⟩) (by decide)⟩

/-! ### Punctuation isolation in the tokenizer (claim C6, amended) -/

theorem spacePunctAux_head_not_punct (l : List Char) (b : Bool) :
    ∀ c, (spacePunctAux l b).head? = some c → isPunct c = false := by
  induction l generalizing b with
  | nil =>
    intro c h
    exact nomatch h
  | cons d rest ih =>
    intro c h
    simp only [spacePunctAux] at h
    split at h
    · exact ih true c h
    · split at h
      · have : c = ' ' := (Option.some.inj h).symm
        subst this
        decide
      · rename_i hskip hd
        have : c = d := (Option.some.inj h).symm
        subst this
        simpa using hd

theorem chain'_spacePunctAux (l : List Char) (b : Bool) :
    List.Chain' punctSpaced (spacePunctAux l b) := by
  induction l generalizing b with
  | nil => simp [spacePunctAux]
  | cons d rest ih =>
    simp only [spacePunctAux]
    split
    · exact ih true
    · split
      · rename_i hskip hd
        refine List.chain'_cons.mpr ⟨?_, List.chain'_cons.mpr ⟨?_, ?_⟩⟩
        · exact ⟨fun hp => absurd hp (by decide), fun _ => by decide⟩
        · exact ⟨fun _ => by decide, fun hp => absurd hp (by decide)⟩
        · refine List.chain'_cons'.mpr ⟨?_, ih true⟩
          intro y _
          exact ⟨fun hp => absurd hp (by decide), fun _ => by decide⟩
      · rename_i hskip hd
        refine List.chain'_cons'.mpr ⟨?_, ih false⟩
        intro y hy
        have hnp : isPunct y = false :=
          spacePunctAux_head_not_punct rest false y (Option.mem_def.mp hy)
        constructor
        · intro hp
          exact absurd hp (by simpa using hd)
        · intro hp
          rw [hnp] at hp
          exact nomatch hp

theorem trim_isInfix (l : List Char) : trim l <:+: l := by
  unfold trim
  have h1 : l.dropWhile isWS <:+ l := List.dropWhile_suffix _
  have h2 : (l.dropWhile isWS).reverse.dropWhile isWS <:+ (l.dropWhile isWS).reverse :=
    List.dropWhile_suffix _
  have h3 : ((l.dropWhile isWS).reverse.dropWhile isWS).reverse <+: l.dropWhile isWS := by
    rw [← List.reverse_suffix]
    rw [List.reverse_reverse]
    exact h2
  exact List.IsInfix.trans (List.IsPrefix.isInfix h3) (List.IsSuffix.isInfix h1)

theorem splitWSAux_punct_isolated :
    ∀ (m acc : List Char),
      List.Chain' punctSpaced m →
      (∀ c ∈ acc, isWS c = false) →
      ((∀ c ∈ acc, isPunct c = false) ∨ ∃ p, isPunct p = true ∧ acc = [p]) →
      (∀ a, acc.head? = some a → ∀ b, m.head? = some b → punctSpaced a b) →
      ∀ t ∈ splitWSAux m acc, ∀ c ∈ t, isPunct c = true → t = [c] := by
  intro m
  induction m with
  | nil =>
    intro acc hch hws hok hrel t ht c hc hp
    simp only [splitWSAux] at ht
    split at ht
    · exact nomatch ht
    · have hta : t = acc.reverse := by simpa using ht
      subst hta
      rcases hok with hnp | ⟨p, hp2, hacc⟩
      · have := hnp c (List.mem_reverse.mp hc)
        rw [this] at hp
        exact nomatch hp
      · subst hacc
        have : c = p := by simpa using hc
        subst this
        rfl
  | cons d rest ih =>
    intro acc hch hws hok hrel t ht c hc hp
    simp only [splitWSAux] at ht
    split at ht
    · rename_i hd
      split at ht
      · exact ih [] hch.tail (by simp) (Or.inl (by simp))
          (fun a ha => nomatch ha) t ht c hc hp
      · rcases List.mem_cons.mp ht with h1 | h1
        · subst h1
          rcases hok with hnp | ⟨p, hp2, hacc⟩
          · have := hnp c (List.mem_reverse.mp hc)
            rw [this] at hp
            exact nomatch hp
          · subst hacc
            have : c = p := by simpa using hc
            subst this
            rfl
        · exact ih [] hch.tail (by simp) (Or.inl (by simp))
            (fun a ha => nomatch ha) t h1 c hc hp
    · rename_i hd
      have hdws : isWS d = false := by simpa using hd
      have hchd := List.chain'_cons'.mp hch
      have hws2 : ∀ c2 ∈ d :: acc, isWS c2 = false := by
        intro c2 hc2
        rcases List.mem_cons.mp hc2 with h1 | h1
        · subst h1
          exact hdws
        · exact hws c2 h1
      have hok2 : (∀ c2 ∈ d :: acc, isPunct c2 = false) ∨
          ∃ p, isPunct p = true ∧ d :: acc = [p] := by
        by_cases hdp : isPunct d = true
        · cases acc with
          | nil => exact Or.inr ⟨d, hdp, rfl⟩
          | cons a as =>
            have hr := hrel a rfl d rfl
            have := hr.2 hdp
            rw [hws a (List.mem_cons_self a as)] at this
            exact nomatch this
        · refine Or.inl ?_
          intro c2 hc2
          rcases List.mem_cons.mp hc2 with h1 | h1
          · subst h1
            simpa using hdp
          · rcases hok with hnp | ⟨p, hp2, hacc⟩
            · exact hnp c2 h1
            · subst hacc
              have : c2 = p := by simpa using h1
              subst this
              have hr := hrel c2 rfl d rfl
              have := hr.1 hp2
              rw [hdws] at this
              exact nomatch this
      have hrel2 : ∀ a, (d :: acc).head? = some a →
          ∀ b2, rest.head? = some b2 → punctSpaced a b2 := by
        intro a ha b2 hb2
        have : a = d := (Option.some.inj ha).symm
        subst this
        exact hchd.1 b2 (Option.mem_def.mpr hb2)
      exact ih (d :: acc) hchd.2 hws2 hok2 hrel2 t ht c hc hp

/-- Claim C6, amended: in every tokenization the source produces, a token
containing a sentence-terminating punctuation character is exactly that
single character — the regex inserts a space on both sides of the mark, so
punctuation is emitted as its own token, never attached to the preceding
word. -/
theorem punct_token_isolated (order : Nat) (text : String) (tokens : List String)
    (t : String) (c : Char) (h : preprocessText order text = .ok tokens)
    (ht : t ∈ tokens) (hc : c ∈ t.data) (hp : isPunct c = true) :
    t = String.mk [c] := by
  have htok : tokens = tokenize text := by
    simp only [preprocessText] at h
    split at h
    · exact nomatch h
    · split at h
      · exact nomatch h
      · exact (Except.ok.inj h).symm
  subst htok
  unfold tokenize at ht
  rcases List.mem_map.mp ht with ⟨cs, hcs, hteq⟩
  subst hteq
  have hc2 : c ∈ cs := hc
  have hchain : List.Chain' punctSpaced (trim (spacePunct (collapseWS text.data))) :=
    List.Chain'.infix (chain'_spacePunctAux (collapseWS text.data) false)
      (trim_isInfix _)
  have hcs2 : cs = [c] :=
    splitWSAux_punct_isolated (trim (spacePunct (collapseWS text.data))) []
      hchain (by simp) (Or.inl (by simp)) (fun a ha => nomatch ha)
      cs hcs c hc2 hp
  rw [hcs2]

theorem punct_token_isolated_witness :
    preprocessText 1 ("Hi there! Bye.") = .ok ["Hi", "there", "!", "Bye", "."] ∧
    ("!" : String) ∈ ["Hi", "there", "!", "Bye", "."] ∧
    ('!' ∈ ("!" : String).data ∧ isPunct '!' = true) ∧
    ("!" : String) = String.mk ['!'] :=
  ⟨by decide, by decide, ⟨by decide, by decide⟩,
   punct_token_isolated 1 ("Hi there! Bye.") ["Hi", "there", "!", "Bye", "."]
     "!" '!' (by decide) (by decide) (by decide) (by decide)⟩

end Swak
